import Mathlib

/-!
# Verification of the docqa retrieval-assembly pipeline

Shallow embedding of the algorithmic core of the repository:

* `src/docqa/backend/file_utils.py` — `chunk_text` (the Chunker);
* `src/docqa/backend/main.py` — the `upload` endpoint's per-chunk metadata
  construction and the `query_endpoint` retrieval/context-assembly path.

Python strings become `String`, Python lists become `List`, integer
quantities become `Nat` (distances, which the code never inspects, are
modelled as `Int`).
-/

namespace DocQA

/-- Model of Python `re.split(r"\s+", text)`: split on maximal whitespace
runs.  A run at the very start (or end) of the string contributes an empty
leading (or trailing) element, and splitting the empty string yields
`[""]`.  The flag records whether the previous character belonged to a
whitespace run already accounted for. -/
def goSplit : Bool → List Char → List Char → List String
  | _, [], cur => [String.mk cur.reverse]
  | prevWs, c :: cs, cur =>
    if c.isWhitespace then
      if prevWs then goSplit true cs cur
      else String.mk cur.reverse :: goSplit true cs []
    else goSplit false cs (c :: cur)

/-- `words = re.split(r"\s+", text)` at `file_utils.py:29`. -/
def reSplitWs (s : String) : List String := goSplit false s.data []

/-- Python `" ".join(cur_chunk)` at `file_utils.py:38` and `:44`. -/
def joinSpace (ws : List String) : String := String.intercalate " " ws

/-- Python `sum(len(w) + 1 for w in cur_chunk)` at `file_utils.py:41`. -/
def curLenOf (ws : List String) : Nat := (ws.map (fun w => w.length + 1)).sum

/-- Python slice `cur_chunk[-overlap:]` at `file_utils.py:40`.  For
`overlap = 0` the slice is `cur_chunk[0:]`, i.e. the whole list; otherwise
it is the last `min overlap (length)` elements. -/
def pySliceLast (l : List String) (overlap : Nat) : List String :=
  if overlap = 0 then l else l.drop (l.length - overlap)

/-- The `for word in words` loop of `chunk_text` (`file_utils.py:34-44`),
including the trailing `if cur_chunk:` flush.  Arguments mirror the loop
state: remaining words, `cur_chunk`, `cur_len`. -/
def chunkTextLoop (maxChars overlap : Nat) :
    List String → List String → Nat → List String
  | [], curChunk, _ =>
    if curChunk.isEmpty then [] else [joinSpace curChunk]
  | w :: ws, curChunk, curLen =>
    let curChunk' := curChunk ++ [w]
    let curLen' := curLen + w.length + 1
    if maxChars ≤ curLen' then
      joinSpace curChunk' ::
        chunkTextLoop maxChars overlap ws (pySliceLast curChunk' overlap)
          (curLenOf (pySliceLast curChunk' overlap))
    else
      chunkTextLoop maxChars overlap ws curChunk' curLen'

/-- `chunk_text(text, max_chars=800, overlap=100)` from
`file_utils.py:25-46`. -/
def chunk_text (text : String) (maxChars : Nat := 800) (overlap : Nat := 100) :
    List String :=
  chunkTextLoop maxChars overlap (reSplitWs text) [] 0

/-- Ghost variant of `chunkTextLoop` that emits the token buffers instead
of their space-joined rendering; used to state token-coverage properties.
Same control flow as `chunkTextLoop`. -/
def chunkBuffersLoop (maxChars overlap : Nat) :
    List String → List String → Nat → List (List String)
  | [], curChunk, _ =>
    if curChunk.isEmpty then [] else [curChunk]
  | w :: ws, curChunk, curLen =>
    let curChunk' := curChunk ++ [w]
    let curLen' := curLen + w.length + 1
    if maxChars ≤ curLen' then
      curChunk' ::
        chunkBuffersLoop maxChars overlap ws (pySliceLast curChunk' overlap)
          (curLenOf (pySliceLast curChunk' overlap))
    else
      chunkBuffersLoop maxChars overlap ws curChunk' curLen'

/-- The token buffers underlying `chunk_text text maxChars overlap`. -/
def chunkBuffers (text : String) (maxChars overlap : Nat) :
    List (List String) :=
  chunkBuffersLoop maxChars overlap (reSplitWs text) [] 0

/-- Per-chunk metadata persisted by the `upload` endpoint
(`main.py:153`): `{"source_filename": filename, "ord": i,
"text_snippet": chunk[:200]}`. -/
structure Meta where
  source_filename : String
  ord : Nat
  text_snippet : String
deriving DecidableEq

/-- `metadatas = [{"source_filename": filename, "ord": i, "text_snippet":
chunk[:200]} for i, chunk in enumerate(chunks)]` (`main.py:153`). -/
def uploadMetadatas (filename : String) (chunks : List String) : List Meta :=
  chunks.enum.map (fun p => ⟨filename, p.1, p.2.take 200⟩)

/-- The keyword arguments of the `collection.query(...)` call at
`main.py:173-177`.  Embedding vectors are opaque to the code, so they are
modelled as integer lists. -/
structure CollectionQuery where
  query_embeddings : List (List Int)
  n_results : Nat
  include_ : List String
deriving DecidableEq

/-- The store request built by `query_endpoint` (`main.py:173-177`):
`collection.query(query_embeddings=[q_emb], n_results=q.top_k,
include=["documents", "metadatas"])`. -/
def mkCollectionQuery (q_emb : List Int) (top_k : Nat) : CollectionQuery :=
  { query_embeddings := [q_emb]
    n_results := top_k
    include_ := ["documents", "metadatas"] }

/-- The metadata fields `query_endpoint` reads back per candidate
(`main.py:183`). -/
structure QMeta where
  source_filename : String
  ord : Nat
deriving DecidableEq

/-- A similarity-search candidate: a retrieved chunk text with its
metadata and store distance.  The code never requests or reads the
distance; it is carried here so that ordering properties can be stated. -/
structure Candidate where
  doc : String
  meta : QMeta
  distance : Int
deriving DecidableEq

/-- `query_endpoint`'s handling of the candidate order
(`main.py:179-180`): `retrieved_chunks = results["documents"][0]` and
`retrieved_metadata = results["metadatas"][0]` are consumed exactly in
the order the embedding store returned them — no sort is applied. -/
def retrieveCandidates (results : List Candidate) : List Candidate := results

/-- Whether a candidate list is ordered by ascending distance (each
distance ≤ the next). -/
def distanceAscending : List Candidate → Bool
  | [] => true
  | [_] => true
  | a :: b :: t => (decide (a.distance ≤ b.distance)) && distanceAscending (b :: t)

/-- One rendered context entry, from the f-string at `main.py:183`:
`f"From {meta['source_filename']} (part {meta['ord']}): {doc}"`.  The
argument is one `(doc, meta)` pair of `zip(retrieved_chunks,
retrieved_metadata)`. -/
def renderEntry (p : String × QMeta) : String :=
  "From " ++ p.2.source_filename ++ " (part " ++ toString p.2.ord ++ "): " ++ p.1

/-- The list comprehension at `main.py:182-185`: one rendered entry per
`(doc, meta)` pair of `zip(retrieved_chunks, retrieved_metadata)`. -/
def contextEntries (docs : List String) (metas : List QMeta) : List String :=
  (docs.zip metas).map renderEntry

/-- `context_text = "\n\n".join([...])` at `main.py:182-185`. -/
def context_text (docs : List String) (metas : List QMeta) : String :=
  String.intercalate "\n\n" (contextEntries docs metas)

/-- The dedup key of a candidate pair: `(sourceId, position)`. -/
def keyOf (p : String × QMeta) : String × Nat :=
  (p.2.source_filename, p.2.ord)

/-- Modelled from the spec (§4.4 Assembler, dedup phase; the code has no
such phase): scan candidates in order and keep the first occurrence of
each distinct `(sourceId, position)` key, `seen` being the keys already
kept.  Used only as the comparison point for the dedup-idempotence
claim. -/
def specDedupAux (seen : List (String × Nat)) :
    List (String × QMeta) → List (String × QMeta)
  | [] => []
  | p :: ps =>
    if keyOf p ∈ seen then specDedupAux seen ps
    else p :: specDedupAux (keyOf p :: seen) ps

/-- Modelled from the spec: remove duplicate `(sourceId, position)` keys,
keeping first occurrences. -/
def specDedupByKey (rows : List (String × QMeta)) : List (String × QMeta) :=
  specDedupAux [] rows

/-- The concrete candidate scenario of the spec's merge-correctness
property: texts of `[(docA,0,"x"), (docA,1,"y"), (docB,0,"z"),
(docA,2,"w")]` in relevance order. -/
def scenarioDocs : List String := ["x", "y", "z", "w"]

/-- Metadata of the concrete candidate scenario. -/
def scenarioMetas : List QMeta :=
  [⟨"docA", 0⟩, ⟨"docA", 1⟩, ⟨"docB", 0⟩, ⟨"docA", 2⟩]

/-! ## Helper lemmas about the Chunker embedding -/

/-- `re.split` never returns an empty list: even the empty string splits
into one (empty) token. -/
theorem goSplit_ne_nil (cs : List Char) :
    ∀ (b : Bool) (cur : List Char), goSplit b cs cur ≠ [] := by
  induction cs with
  | nil => intro b cur; simp [goSplit]
  | cons c cs ih =>
    intro b cur
    simp only [goSplit]
    split
    · split
      · exact ih _ _
      · simp
    · exact ih _ _

/-- Tokenising any string yields a non-empty token list. -/
theorem reSplitWs_ne_nil (s : String) : reSplitWs s ≠ [] := by
  unfold reSplitWs
  exact goSplit_ne_nil _ _ _

/-- Tokenising any string yields at least one token. -/
theorem reSplitWs_length_pos (s : String) : 1 ≤ (reSplitWs s).length :=
  List.length_pos.mpr (reSplitWs_ne_nil s)

/-- The chunking loop yields at least one chunk as soon as the buffer or
the remaining word list is non-empty (the final `if cur_chunk:` flush). -/
theorem chunkTextLoop_length_pos (mc ov : Nat) (ws : List String) :
    ∀ cur len, cur ≠ [] ∨ ws ≠ [] →
      1 ≤ (chunkTextLoop mc ov ws cur len).length := by
  induction ws with
  | nil =>
    intro cur len h
    have hc : cur ≠ [] := by
      rcases h with h | h
      · exact h
      · exact absurd rfl h
    cases cur with
    | nil => exact absurd rfl hc
    | cons a t => simp [chunkTextLoop]
  | cons w ws ih =>
    intro cur len _
    simp only [chunkTextLoop]
    split
    · simp
    · exact ih _ _ (Or.inl (by simp))

/-- The chunk strings are the space-joins of the ghost token buffers. -/
theorem chunkTextLoop_eq_map_buffers (mc ov : Nat) (ws : List String) :
    ∀ cur len,
      chunkTextLoop mc ov ws cur len =
        (chunkBuffersLoop mc ov ws cur len).map joinSpace := by
  induction ws with
  | nil =>
    intro cur len
    cases cur with
    | nil => simp [chunkTextLoop, chunkBuffersLoop]
    | cons a t => simp [chunkTextLoop, chunkBuffersLoop]
  | cons w ws ih =>
    intro cur len
    simp only [chunkTextLoop, chunkBuffersLoop]
    by_cases hcond : mc ≤ len + w.length + 1
    · simp [hcond, ih]
    · simp [hcond, ih]

/-- Coverage invariant of the chunking loop: the pending buffer followed
by the unprocessed words is a subsequence of the concatenation of all
emitted token buffers. -/
theorem chunkBuffersLoop_cover (mc ov : Nat) (ws : List String) :
    ∀ cur len,
      List.Sublist (cur ++ ws) (chunkBuffersLoop mc ov ws cur len).flatten := by
  induction ws with
  | nil =>
    intro cur len
    cases cur with
    | nil => simp [chunkBuffersLoop]
    | cons a t => simp [chunkBuffersLoop]
  | cons w ws ih =>
    intro cur len
    simp only [chunkBuffersLoop]
    by_cases hcond : mc ≤ len + w.length + 1
    · simp only [if_pos hcond, List.flatten_cons]
      have h1 : List.Sublist ws (chunkBuffersLoop mc ov ws
          (pySliceLast (cur ++ [w]) ov)
          (curLenOf (pySliceLast (cur ++ [w]) ov))).flatten :=
        (List.sublist_append_right _ _).trans (ih _ _)
      have heq : cur ++ w :: ws = (cur ++ [w]) ++ ws := by simp
      rw [heq]
      exact h1.append_left _
    · simp only [if_neg hcond]
      have h2 := ih (cur ++ [w]) (len + w.length + 1)
      simpa using h2

/-- When `overlap` is `0` (Python `[-0:]`) or at least the buffer length,
the retained slice is the whole buffer. -/
theorem pySliceLast_all (l : List String) (ov : Nat)
    (h : ov = 0 ∨ l.length ≤ ov) : pySliceLast l ov = l := by
  rcases h with h | h
  · simp [pySliceLast, h]
  · by_cases h0 : ov = 0
    · simp [pySliceLast, h0]
    · simp [pySliceLast, h0, Nat.sub_eq_zero_of_le h]

/-- With `maxChars = 1` every appended word triggers an emission, and when
the retained slice is the whole buffer the loop emits one chunk per
remaining word plus the final flush. -/
theorem chunkTextLoop_one_length (ov : Nat) (ws : List String) :
    ∀ cur len, cur ≠ [] → (ov = 0 ∨ cur.length + ws.length ≤ ov) →
      (chunkTextLoop 1 ov ws cur len).length = ws.length + 1 := by
  induction ws with
  | nil =>
    intro cur len hcur _
    cases cur with
    | nil => exact absurd rfl hcur
    | cons a t => simp [chunkTextLoop]
  | cons w ws ih =>
    intro cur len hcur hov
    have hcond : (1 : Nat) ≤ len + w.length + 1 := by omega
    have hall : pySliceLast (cur ++ [w]) ov = cur ++ [w] := by
      apply pySliceLast_all
      rcases hov with h | h
      · exact Or.inl h
      · right
        simp only [List.length_append, List.length_cons, List.length_nil] at h ⊢
        omega
    simp only [chunkTextLoop, if_pos hcond, hall, List.length_cons]
    rw [ih (cur ++ [w]) _ (by simp) ?side]
    case side =>
      rcases hov with h | h
      · exact Or.inl h
      · right
        simp only [List.length_append, List.length_cons, List.length_nil] at h ⊢
        omega

/-! ## Helper lemmas about the spec's dedup phase -/

/-- The dedup phase never lengthens the candidate list. -/
theorem specDedupAux_length_le (rows : List (String × QMeta)) :
    ∀ seen, (specDedupAux seen rows).length ≤ rows.length := by
  induction rows with
  | nil => intro seen; simp [specDedupAux]
  | cons p ps ih =>
    intro seen
    simp only [specDedupAux]
    split
    · exact (ih seen).trans (Nat.le_succ _)
    · simpa using ih (keyOf p :: seen)

/-- The dedup phase strictly shortens the candidate list as soon as some
key is duplicated in it or already recorded as seen. -/
theorem specDedupAux_length_lt (rows : List (String × QMeta)) :
    ∀ seen,
      (¬ (rows.map keyOf).Nodup ∨ ∃ p ∈ rows, keyOf p ∈ seen) →
      (specDedupAux seen rows).length < rows.length := by
  induction rows with
  | nil =>
    intro seen h
    rcases h with h | ⟨p, hp, _⟩
    · simp at h
    · simp at hp
  | cons p ps ih =>
    intro seen h
    by_cases hk : keyOf p ∈ seen
    · simp only [specDedupAux, if_pos hk, List.length_cons]
      exact Nat.lt_succ_of_le (specDedupAux_length_le ps seen)
    · simp only [specDedupAux, if_neg hk, List.length_cons]
      have hnext : ¬ (ps.map keyOf).Nodup ∨ ∃ q ∈ ps, keyOf q ∈ keyOf p :: seen := by
        rcases h with h | ⟨q, hq, hqs⟩
        · rw [List.map_cons, List.nodup_cons] at h
          by_cases hmem : keyOf p ∈ ps.map keyOf
          · rcases List.mem_map.mp hmem with ⟨q, hq, hkey⟩
            exact Or.inr ⟨q, hq, by rw [hkey]; exact List.mem_cons_self _ _⟩
          · exact Or.inl fun hnd => h ⟨hmem, hnd⟩
        · rcases List.mem_cons.mp hq with rfl | hq'
          · exact absurd hqs hk
          · exact Or.inr ⟨q, hq', List.mem_cons_of_mem _ hqs⟩
      exact Nat.succ_lt_succ (ih _ hnext)

/-! ## Claim theorems -/

/-- Claim C1 counterexample: on the scenario candidate list
`[(docA,0,"x"), (docA,1,"y"), (docB,0,"z"), (docA,2,"w")]` the code's
context assembly produces four provenance-labelled units — one per
candidate — not the three MergedBlocks the claim asserts. -/
theorem claim_C1_counterexample :
    (contextEntries scenarioDocs scenarioMetas).length = 4 ∧
    (contextEntries scenarioDocs scenarioMetas).length ≠ 3 :=
  ⟨rfl, by decide⟩

/-- Claim C1 (amended): the code performs no merging and no
deduplication; on the scenario candidate list it renders one labelled
entry per candidate, in the given relevance order, joined by blank
lines — `(docA,0)` and `(docA,1)` remain separate entries. -/
theorem claim_C1_amended :
    contextEntries scenarioDocs scenarioMetas =
      ["From docA (part 0): x", "From docA (part 1): y",
       "From docB (part 0): z", "From docA (part 2): w"] ∧
    context_text scenarioDocs scenarioMetas =
      "From docA (part 0): x\n\nFrom docA (part 1): y\n\nFrom docB (part 0): z\n\nFrom docA (part 2): w" :=
  ⟨rfl, rfl⟩

/-- Claim C2 counterexample: assembling a candidate list containing an
exact duplicate of `(docA, 0)` yields two entries, while assembling the
list with the duplicate removed yields one — the outputs differ. -/
theorem claim_C2_counterexample :
    contextEntries ["x", "x"] [⟨"docA", 0⟩, ⟨"docA", 0⟩] =
      ["From docA (part 0): x", "From docA (part 0): x"] ∧
    contextEntries ["x", "x"] [⟨"docA", 0⟩, ⟨"docA", 0⟩] ≠
      contextEntries ["x"] [⟨"docA", 0⟩] :=
  ⟨rfl, by decide⟩

/-- Claim C2 (amended): the code performs no deduplication — every
candidate, duplicate or not, contributes its own context entry — so
whenever the candidate list contains a duplicated `(sourceId, position)`
key, its assembly differs from the assembly of the list with duplicates
removed (first occurrences kept, as the spec's dedup phase prescribes). -/
theorem claim_C2_amended (docs : List String) (metas : List QMeta)
    (h : ¬ ((docs.zip metas).map keyOf).Nodup) :
    contextEntries docs metas ≠
      (specDedupByKey (docs.zip metas)).map renderEntry := by
  intro heq
  have hlen := congrArg List.length heq
  simp only [contextEntries, List.length_map] at hlen
  have hlt := specDedupAux_length_lt (docs.zip metas) [] (Or.inl h)
  rw [specDedupByKey] at hlen
  omega

/-- Claim C2 witness: the amended statement applied to the concrete
duplicate list `[("x", (docA,0)), ("x", (docA,0))]`. -/
theorem claim_C2_witness :
    (¬ (((["x", "x"]).zip [(⟨"docA", 0⟩ : QMeta), ⟨"docA", 0⟩]).map keyOf).Nodup) ∧
    contextEntries ["x", "x"] [⟨"docA", 0⟩, ⟨"docA", 0⟩] ≠
      (specDedupByKey ((["x", "x"]).zip [⟨"docA", 0⟩, ⟨"docA", 0⟩])).map renderEntry :=
  ⟨by decide, claim_C2_amended ["x", "x"] [⟨"docA", 0⟩, ⟨"docA", 0⟩] (by decide)⟩

/-- Claim C3 counterexample: for `topK = 4` the store request built by
`query_endpoint` asks for `n_results = 4` candidates, not
`max(4*3, 4+5) = 12`. -/
theorem claim_C3_counterexample :
    (mkCollectionQuery [] 4).n_results = 4 ∧
    (mkCollectionQuery [] 4).n_results ≠ max (4 * 3) (4 + 5) :=
  ⟨rfl, by decide⟩

/-- Claim C3 (amended): the Retriever does not over-fetch — it requests
exactly `topK` nearest neighbors, which is strictly fewer than the spec's
`max(topK * 3, topK + 5)` for every `topK`. -/
theorem claim_C3_amended (q_emb : List Int) (top_k : Nat) :
    (mkCollectionQuery q_emb top_k).n_results = top_k ∧
    (mkCollectionQuery q_emb top_k).n_results < max (top_k * 3) (top_k + 5) := by
  refine ⟨rfl, ?_⟩
  have h : top_k < top_k + 5 := by omega
  exact lt_of_lt_of_le h (le_max_right _ _)

/-- Claim C4 counterexample: when the store returns candidates with
distances `[2, 1]`, the code passes them through in store order, which is
not ascending by distance — no defensive sort happens. -/
theorem claim_C4_counterexample :
    retrieveCandidates [⟨"z", ⟨"docB", 0⟩, 2⟩, ⟨"y", ⟨"docA", 1⟩, 1⟩] =
      [⟨"z", ⟨"docB", 0⟩, 2⟩, ⟨"y", ⟨"docA", 1⟩, 1⟩] ∧
    distanceAscending
      (retrieveCandidates [⟨"z", ⟨"docB", 0⟩, 2⟩, ⟨"y", ⟨"docA", 1⟩, 1⟩]) = false :=
  ⟨rfl, rfl⟩

/-- Claim C4 (amended): `query_endpoint` applies no sort at all — the
candidate sequence it consumes is exactly the embedding store's output
order, and its store request does not even ask for distances (the
`include` list holds only documents and metadatas). -/
theorem claim_C4_amended :
    (∀ results : List Candidate, retrieveCandidates results = results) ∧
    (∀ (q_emb : List Int) (top_k : Nat),
      "distances" ∉ (mkCollectionQuery q_emb top_k).include_) := by
  refine ⟨fun _ => rfl, ?_⟩
  intro q_emb top_k
  show "distances" ∉ ["documents", "metadatas"]
  decide

/-- Claim C5: evaluation of the code at the failing inputs — chunking the
empty string yields the one-element sequence `[""]` and chunking the
whitespace-only string `"  "` yields `[" "]`, not an empty sequence as
the claim (and the caller's dead `if not chunks:` guard at
`main.py:147`) expects. -/
theorem claim_C5_eval :
    chunk_text "" 800 100 = [""] ∧ chunk_text "  " 800 100 = [" "] :=
  ⟨rfl, rfl⟩

/-- Claim C6: evaluation of the code at the failing configuration
`overlap = 0` — Python `cur_chunk[-0:]` is the whole list, so after
emitting `"aa"` the buffer retains `["aa"]` rather than nothing, and the
next chunks repeat the full prior buffer: `["aa", "aa bb", "aa bb"]`
instead of the claimed `["aa", "bb"]`. -/
theorem claim_C6_eval :
    pySliceLast ["aa"] 0 = ["aa"] ∧
    chunk_text "aa bb" 3 0 = ["aa", "aa bb", "aa bb"] :=
  ⟨rfl, rfl⟩

/-- Claim C7 counterexample: with `maxChars = 3` and `overlap = 5` (an
overlap footprint well above the chunk size, the claimed non-progress
configuration) `chunk_text` is not rejected — it runs the whole loop and
returns four chunks, each extending the previous one. -/
theorem claim_C7_counterexample :
    chunk_text "aa bb cc" 3 5 = ["aa", "aa bb", "aa bb cc", "aa bb cc"] ∧
    (chunk_text "aa bb cc" 3 5).length = 4 :=
  ⟨rfl, rfl⟩

/-- Claim C7 (amended): `chunk_text` performs no configuration
validation and never fails fast: even in a non-progress configuration
(here `maxChars = 1`, below every token's footprint, with the retained
slice covering the whole buffer) the loop runs over the entire token
list and returns normally, emitting one chunk per token plus the final
flush. -/
theorem claim_C7_amended (text : String) (ov : Nat)
    (h : ov = 0 ∨ (reSplitWs text).length ≤ ov) :
    (chunk_text text 1 ov).length = (reSplitWs text).length + 1 := by
  unfold chunk_text
  rcases hws : reSplitWs text with _ | ⟨w, ws⟩
  · exact absurd hws (reSplitWs_ne_nil text)
  · rw [hws] at h
    have hcond : (1 : Nat) ≤ 0 + w.length + 1 := by omega
    have hone : ov = 0 ∨ (1 : Nat) + ws.length ≤ ov := by
      rcases h with h | h
      · exact Or.inl h
      · right
        have hh : ws.length + 1 ≤ ov := by simpa using h
        omega
    have hall : pySliceLast ([] ++ [w]) ov = [] ++ [w] := by
      apply pySliceLast_all
      rcases hone with h1 | h1
      · exact Or.inl h1
      · right
        simp only [List.length_append, List.length_cons, List.length_nil]
        omega
    simp only [chunkTextLoop, if_pos hcond, hall, List.length_cons]
    rw [chunkTextLoop_one_length ov ws ([] ++ [w]) _ (by simp) ?side]
    case side =>
      rcases hone with h1 | h1
      · exact Or.inl h1
      · right
        simp only [List.length_append, List.length_cons, List.length_nil]
        omega

/-- Claim C7 witness: the amended statement applied at `text = "aa bb"`,
`overlap = 5`. -/
theorem claim_C7_witness :
    ((5 : Nat) = 0 ∨ (reSplitWs "aa bb").length ≤ 5) ∧
    (chunk_text "aa bb" 1 5).length = (reSplitWs "aa bb").length + 1 :=
  ⟨Or.inr (by decide), claim_C7_amended "aa bb" 5 (Or.inr (by decide))⟩

/-- Claim C8: chunk coverage — the chunks are the space-joins of the
underlying token buffers, the original token sequence is a subsequence
of the concatenation of those buffers (so tokens keep their original
order, overlap-induced repetition aside), and every token of the input
appears in at least one produced chunk's buffer. -/
theorem claim_C8_coverage (text : String) (mc ov : Nat) :
    chunk_text text mc ov = (chunkBuffers text mc ov).map joinSpace ∧
    List.Sublist (reSplitWs text) (chunkBuffers text mc ov).flatten ∧
    (∀ w ∈ reSplitWs text, ∃ buf ∈ chunkBuffers text mc ov, w ∈ buf) := by
  have hcover : List.Sublist (reSplitWs text) (chunkBuffers text mc ov).flatten := by
    simpa using chunkBuffersLoop_cover mc ov (reSplitWs text) [] 0
  refine ⟨chunkTextLoop_eq_map_buffers mc ov (reSplitWs text) [] 0, hcover, ?_⟩
  intro w hw
  have hmem : w ∈ (chunkBuffers text mc ov).flatten := hcover.subset hw
  simpa using List.mem_flatten.mp hmem

/-- Claim C9: the persisted `ord` fields for one indexing run are exactly
`0, 1, ..., n-1` in chunk order — no gaps, no repeats. -/
theorem claim_C9_positions (filename : String) (chunks : List String) :
    (uploadMetadatas filename chunks).map Meta.ord = List.range chunks.length ∧
    ((uploadMetadatas filename chunks).map Meta.ord).Nodup := by
  have h : (uploadMetadatas filename chunks).map Meta.ord = List.range chunks.length := by
    simp only [uploadMetadatas, List.map_map]
    have : (Meta.ord ∘ fun p : Nat × String => (⟨filename, p.1, p.2.take 200⟩ : Meta)) =
        Prod.fst := rfl
    rw [this, List.enum_eq_enumFrom, List.enumFrom_map_fst, List.range_eq_range']
  exact ⟨h, h ▸ List.nodup_range _⟩

/-- Claim C10: `chunk_text` always returns at least one chunk —
tokenising any string yields at least one token and the final non-empty
buffer is always flushed; in particular `chunk_text ""` (with the
source's default arguments) is the one-element sequence `[""]`. -/
theorem claim_C10_nonempty :
    (∀ s : String, 1 ≤ (reSplitWs s).length) ∧
    (∀ (text : String) (mc ov : Nat), 1 ≤ (chunk_text text mc ov).length) ∧
    chunk_text "" 800 100 = [""] := by
  refine ⟨reSplitWs_length_pos, ?_, rfl⟩
  intro text mc ov
  exact chunkTextLoop_length_pos mc ov (reSplitWs text) [] 0
    (Or.inr (goSplit_ne_nil _ _ _))

end DocQA
